import Mathlib

/-!
Verification development for the duplicate house-number detector
(`src/app.py`).  The detection core (lines 84-102 of the source) is
embedded shallowly:

* coordinates are pairs of integers (projected meters); all distance
  comparisons are phrased with squared Euclidean distances, so that
  "distance ≤ t" becomes "sqDist ≤ t * t" together with "0 ≤ t",
  which is equivalent for real radii and avoids square roots;
* a record's attribute row is an association list from field name to the
  stringified field value (the source applies `str` to every accessed
  value before joining);
* `make_key` mirrors the source's composite-key builder, joining the
  house-number value with the chosen extra attribute values by "|";
* `query_ball_point` mirrors `scipy.spatial.KDTree.query_ball_point`,
  which returns the indices of all points whose Euclidean distance to
  the query point is at most the radius (closed ball; an empty result
  for a negative radius);
* `duplicate_indices` mirrors the double loop of the source: for each
  record, query the ball, and for every distinct neighbour with an equal
  composite key insert both indices in the result set;
* `detect` is the whole detection pass.  The error taxonomy follows the
  specification: the threshold guard models the input widget of the
  source, which rejects any threshold below 1 before detection can run,
  and the missing-field error models the KeyError that the source's
  key-building step raises before any spatial index is built.
-/

/-- Coordinates of a projected point, in meters. -/
abbrev Coord := ℤ × ℤ

/-- Squared Euclidean distance between two projected points. -/
def sqDist (p q : Coord) : ℤ :=
  (p.1 - q.1) * (p.1 - q.1) + (p.2 - q.2) * (p.2 - q.2)

/-- Input record: a projected coordinate plus the attribute row, an
ordered association list from field name to stringified value. -/
structure Record where
  coord : Coord
  attrs : List (String × String)
deriving DecidableEq

/-- Default record used for out-of-range list access in statements. -/
def defaultRecord : Record := ⟨(0, 0), []⟩

/-- Reading one attribute value of a record, by field name
(the source's `row[f]`, `none` when the field is absent). -/
def getField (r : Record) (f : String) : Option String :=
  r.attrs.lookup f

/-- Collects the stringified values of the given fields of a record, in
order, failing with the first absent field name (the source's
`parts` accumulation, where an absent field raises a KeyError). -/
def fieldParts (r : Record) : List String → Except String (List String)
  | [] => .ok []
  | f :: fs =>
    match getField r f with
    | none => .error f
    | some v =>
      match fieldParts r fs with
      | .error e => .error e
      | .ok vs => .ok (v :: vs)

/-- Composite key of a record (the source's `make_key`): the
house-number value followed by the extra attribute values, joined
by the separator "|". -/
def make_key (house_num_field : String) (extraFields : List String)
    (r : Record) : Except String String :=
  match fieldParts r (house_num_field :: extraFields) with
  | .error f => .error f
  | .ok parts => .ok (String.intercalate "|" parts)

/-- Radius query of the spatial index
(scipy's `KDTree.query_ball_point`): the indices of all coordinates
whose Euclidean distance to the query point is at most `t`
(closed ball), stated with squared distances. -/
def query_ball_point (coords : List Coord) (p : Coord) (t : ℤ) : List ℕ :=
  (List.range coords.length).filter
    (fun j => decide (0 ≤ t) && decide (sqDist p (coords.getD j (0, 0)) ≤ t * t))

/-- Accumulation loop of the source (lines 93-100): iterate over the
enumerated zip of coordinates and composite keys; for each record query
the ball around it and, for every distinct neighbour with an equal
composite key, insert both indices in the duplicate set. -/
def duplicate_indices (coords : List Coord) (keys : List String) (t : ℤ) : Finset ℕ :=
  ((coords.zip keys).enum).foldl
    (fun acc p =>
      (query_ball_point coords p.2.1 t).foldl
        (fun acc2 j =>
          if j ≠ p.1 ∧ keys.getD j "" = p.2.2 then insert p.1 (insert j acc2) else acc2)
        acc)
    ∅

/-- Errors of a detection pass, following the specification's taxonomy:
a non-positive threshold, or a designated key field absent on some
record (with the offending record id and field name). -/
inductive DetectError where
  | invalidThreshold : DetectError
  | missingField : ℕ → String → DetectError
deriving DecidableEq

/-- Composite keys of all records, computed up front
(the source's `gdf.apply(make_key, axis=1)`), failing on the first
record whose key cannot be derived.  The first argument is the id of
the first record of the list. -/
def computeKeys (house_num_field : String) (extraFields : List String) :
    ℕ → List Record → Except DetectError (List String)
  | _, [] => .ok []
  | i, r :: rs =>
    match make_key house_num_field extraFields r with
    | .error f => .error (.missingField i f)
    | .ok k =>
      match computeKeys house_num_field extraFields (i + 1) rs with
      | .error e => .error e
      | .ok ks => .ok (k :: ks)

/-- Whole detection pass: validate the threshold (the source's input
widget rejects any threshold below 1 before detection can run), derive
every composite key, then build the spatial index and accumulate the
duplicate set. -/
def detect (records : List Record) (house_num_field : String)
    (extraFields : List String) (t : ℤ) : Except DetectError (Finset ℕ) :=
  if t < 1 then .error .invalidThreshold
  else
    match computeKeys house_num_field extraFields 0 records with
    | .error e => .error e
    | .ok keys => .ok (duplicate_indices (records.map Record.coord) keys t)

/-- Witness relation of the specification: distinct in-range indices
whose composite keys agree and whose coordinates lie within the
distance threshold of each other. -/
def witnessPair (coords : List Coord) (keys : List String) (t : ℤ) (i j : ℕ) : Prop :=
  i < coords.length ∧ j < coords.length ∧ j ≠ i ∧
    keys.getD j "" = keys.getD i "" ∧ 0 ≤ t ∧
    sqDist (coords.getD i (0, 0)) (coords.getD j (0, 0)) ≤ t * t

instance witnessPairDecidable (coords : List Coord) (keys : List String)
    (t : ℤ) (i j : ℕ) : Decidable (witnessPair coords keys t i j) := by
  unfold witnessPair
  infer_instance

def exceptDecEq {ε α : Type} [DecidableEq ε] [DecidableEq α] :
    DecidableEq (Except ε α)
  | .error e, .error f =>
    if h : e = f then isTrue (by rw [h]) else isFalse (fun hc => h (Except.error.inj hc))
  | .error _, .ok _ => isFalse (fun hc => Except.noConfusion hc)
  | .ok _, .error _ => isFalse (fun hc => Except.noConfusion hc)
  | .ok x, .ok y =>
    if h : x = y then isTrue (by rw [h]) else isFalse (fun hc => h (Except.ok.inj hc))

instance {ε α : Type} [DecidableEq ε] [DecidableEq α] : DecidableEq (Except ε α) :=
  exceptDecEq

/-! ### Membership characterization of the accumulation loop -/

lemma mem_foldl_iff {α : Type} (F : Finset ℕ → α → Finset ℕ) (Q : α → ℕ → Prop)
    (hF : ∀ acc a x, x ∈ F acc a ↔ x ∈ acc ∨ Q a x) :
    ∀ (L : List α) (acc : Finset ℕ) (x : ℕ),
      x ∈ L.foldl F acc ↔ x ∈ acc ∨ ∃ a ∈ L, Q a x := by
  intro L
  induction L with
  | nil => intro acc x; simp
  | cons a L ih =>
    intro acc x
    rw [List.foldl_cons, ih, hF]
    constructor
    · rintro ((h | h) | ⟨b, hb, h⟩)
      · exact Or.inl h
      · exact Or.inr ⟨a, List.mem_cons_self a L, h⟩
      · exact Or.inr ⟨b, List.mem_cons_of_mem a hb, h⟩
    · rintro (h | ⟨b, hb, h⟩)
      · exact Or.inl (Or.inl h)
      · rcases List.mem_cons.mp hb with rfl | hb
        · exact Or.inl (Or.inr h)
        · exact Or.inr ⟨b, hb, h⟩

lemma mem_ite_insert_pair (i j x : ℕ) (c : Prop) [Decidable c] (acc : Finset ℕ) :
    (x ∈ if c then insert i (insert j acc) else acc) ↔
      x ∈ acc ∨ (c ∧ (x = i ∨ x = j)) := by
  by_cases h : c
  · simp only [if_pos h, Finset.mem_insert]
    tauto
  · simp only [if_neg h]
    tauto

lemma mem_query_ball_point (coords : List Coord) (p : Coord) (t : ℤ) (j : ℕ) :
    j ∈ query_ball_point coords p t ↔
      j < coords.length ∧ 0 ≤ t ∧ sqDist p (coords.getD j (0, 0)) ≤ t * t := by
  unfold query_ball_point
  simp [List.mem_filter, List.mem_range, and_assoc]

/-- Raw membership characterization of the duplicate set: an index is a
member exactly when some iteration of the double loop inserted it. -/
lemma mem_duplicate_indices_raw (coords : List Coord) (keys : List String)
    (t : ℤ) (x : ℕ) :
    x ∈ duplicate_indices coords keys t ↔
      ∃ i j : ℕ, i < coords.length ∧ i < keys.length ∧ j < coords.length ∧
        j ≠ i ∧ keys.getD j "" = keys.getD i "" ∧ 0 ≤ t ∧
        sqDist (coords.getD i (0, 0)) (coords.getD j (0, 0)) ≤ t * t ∧
        (x = i ∨ x = j) := by
  unfold duplicate_indices
  rw [mem_foldl_iff (α := ℕ × (Coord × String))
    (fun acc p =>
      (query_ball_point coords p.2.1 t).foldl
        (fun acc2 j =>
          if j ≠ p.1 ∧ keys.getD j "" = p.2.2 then insert p.1 (insert j acc2) else acc2)
        acc)
    (fun p x => ∃ j ∈ query_ball_point coords p.2.1 t,
        (j ≠ p.1 ∧ keys.getD j "" = p.2.2) ∧ (x = p.1 ∨ x = j))
    (by
      intro acc p y
      rw [mem_foldl_iff
        (fun acc2 j =>
          if j ≠ p.1 ∧ keys.getD j "" = p.2.2 then insert p.1 (insert j acc2) else acc2)
        (fun j y => (j ≠ p.1 ∧ keys.getD j "" = p.2.2) ∧ (y = p.1 ∨ y = j))
        (by intro acc2 j z; exact mem_ite_insert_pair p.1 j z _ acc2)]) ]
  simp only [Finset.not_mem_empty, false_or]
  constructor
  · rintro ⟨p, hp, j, hj, ⟨hne, hkey⟩, hx⟩
    rcases List.mem_iff_getElem.mp hp with ⟨i, hi, rfl⟩
    have hiz : i < (coords.zip keys).length := by
      simpa [List.enum_length] using hi
    have hic : i < coords.length := by
      rw [List.length_zip] at hiz; omega
    have hik : i < keys.length := by
      rw [List.length_zip] at hiz; omega
    rw [List.getElem_enum, List.getElem_zip] at hj hne hkey hx
    simp only at hj hne hkey hx
    rw [mem_query_ball_point] at hj
    refine ⟨i, j, hic, hik, hj.1, hne, ?_, hj.2.1, ?_, hx⟩
    · rw [hkey, List.getD_eq_getElem keys "" hik]
    · rw [List.getD_eq_getElem coords (0, 0) hic]
      exact hj.2.2
  · rintro ⟨i, j, hic, hik, hjc, hne, hkey, ht, hd, hx⟩
    refine ⟨((coords.zip keys).enum).get ⟨i, ?_⟩, List.get_mem _ _ _, ?_⟩
    · simp only [List.enum_length, List.length_zip]
      omega
    · rw [List.get_eq_getElem, List.getElem_enum, List.getElem_zip]
      refine ⟨j, ?_, ⟨hne, ?_⟩, ?_⟩
      · rw [mem_query_ball_point]
        refine ⟨hjc, ht, ?_⟩
        rw [← List.getD_eq_getElem coords (0, 0) hic]
        exact hd
      · rw [hkey, List.getD_eq_getElem keys "" hik]
      · exact hx

lemma sqDist_comm (p q : Coord) : sqDist p q = sqDist q p := by
  unfold sqDist
  ring

lemma witnessPair_symm {coords : List Coord} {keys : List String} {t : ℤ}
    {i j : ℕ} (h : witnessPair coords keys t i j) : witnessPair coords keys t j i := by
  obtain ⟨hi, hj, hne, hkey, ht, hd⟩ := h
  exact ⟨hj, hi, fun hc => hne hc.symm, hkey.symm, ht, by rwa [sqDist_comm]⟩

/-- Membership in the duplicate set, for index-aligned key and
coordinate lists: an index is a member exactly when it has a witness. -/
lemma mem_duplicate_indices {coords : List Coord} {keys : List String}
    (hl : keys.length = coords.length) (t : ℤ) (x : ℕ) :
    x ∈ duplicate_indices coords keys t ↔ ∃ j, witnessPair coords keys t x j := by
  rw [mem_duplicate_indices_raw]
  constructor
  · rintro ⟨i, j, hic, _, hjc, hne, hkey, ht, hd, hx | hx⟩
    · exact ⟨j, by rw [hx]; exact ⟨hic, hjc, hne, hkey, ht, hd⟩⟩
    · refine ⟨i, by rw [hx]; exact witnessPair_symm ⟨hic, hjc, hne, hkey, ht, hd⟩⟩
  · rintro ⟨j, hw⟩
    obtain ⟨hx, hj, hne, hkey, ht, hd⟩ := hw
    exact ⟨x, j, hx, by omega, hj, hne, hkey, ht, hd, Or.inl rfl⟩

/-! ### Facts about the up-front key computation -/

lemma computeKeys_ok_length (hn : String) (ex : List String) :
    ∀ (i0 : ℕ) (rs : List Record) (ks : List String),
      computeKeys hn ex i0 rs = .ok ks → ks.length = rs.length := by
  intro i0 rs
  induction rs generalizing i0 with
  | nil => intro ks h; cases h; rfl
  | cons r rs ih =>
    intro ks h
    unfold computeKeys at h
    cases hmk : make_key hn ex r with
    | error f => rw [hmk] at h; cases h
    | ok k =>
      rw [hmk] at h
      cases hck : computeKeys hn ex (i0 + 1) rs with
      | error e => rw [hck] at h; cases h
      | ok ks0 =>
        rw [hck] at h
        cases h
        simp [ih (i0 + 1) ks0 hck]

lemma computeKeys_ok_get (hn : String) (ex : List String) :
    ∀ (i0 : ℕ) (rs : List Record) (ks : List String),
      computeKeys hn ex i0 rs = .ok ks →
      ∀ m, m < rs.length →
        make_key hn ex (rs.getD m defaultRecord) = .ok (ks.getD m "") := by
  intro i0 rs
  induction rs generalizing i0 with
  | nil => intro ks _ m hm; cases hm
  | cons r rs ih =>
    intro ks h m hm
    unfold computeKeys at h
    cases hmk : make_key hn ex r with
    | error f => rw [hmk] at h; cases h
    | ok k =>
      rw [hmk] at h
      cases hck : computeKeys hn ex (i0 + 1) rs with
      | error e => rw [hck] at h; cases h
      | ok ks0 =>
        rw [hck] at h
        cases h
        cases m with
        | zero => simpa using hmk
        | succ m =>
          have hm2 : m < rs.length := by simpa using hm
          simpa using ih (i0 + 1) ks0 hck m hm2

lemma detect_ok_elim (records : List Record) (hn : String) (ex : List String)
    (t : ℤ) (s : Finset ℕ) (h : detect records hn ex t = .ok s) :
    1 ≤ t ∧ ∃ keys, computeKeys hn ex 0 records = .ok keys ∧
      s = duplicate_indices (records.map Record.coord) keys t := by
  unfold detect at h
  by_cases ht : t < 1
  · rw [if_pos ht] at h; cases h
  · rw [if_neg ht] at h
    refine ⟨by omega, ?_⟩
    cases hck : computeKeys hn ex 0 records with
    | error e => rw [hck] at h; cases h
    | ok keys =>
      rw [hck] at h
      cases h
      exact ⟨keys, rfl, rfl⟩

lemma getD_map_coord (records : List Record) (i : ℕ) (hi : i < records.length) :
    (records.map Record.coord).getD i (0, 0) = (records.getD i defaultRecord).coord := by
  rw [List.getD_eq_getElem _ _ (by simpa using hi), List.getD_eq_getElem _ _ hi,
    List.getElem_map]

/-! ### Claim theorems -/

/-- C1: for every input record sequence, key-field selection and
threshold, every id returned by the detection pass has a qualifying
witness — another id of the returned set whose record has the same
composite key and lies within the distance threshold — and each record
contributes its id to the returned set at most once. -/
theorem detect_result_members_have_witness (records : List Record)
    (hn : String) (ex : List String) (t : ℤ) (s : Finset ℕ)
    (hok : detect records hn ex t = .ok s) (i : ℕ) (hi : i ∈ s) :
    (∃ j ∈ s, j ≠ i ∧
      make_key hn ex (records.getD j defaultRecord) =
        make_key hn ex (records.getD i defaultRecord) ∧
      sqDist (records.getD i defaultRecord).coord
        (records.getD j defaultRecord).coord ≤ t * t) ∧
    s.val.count i ≤ 1 := by
  obtain ⟨ht, keys, hck, rfl⟩ := detect_ok_elim records hn ex t s hok
  have hkl : keys.length = (records.map Record.coord).length := by
    rw [List.length_map]
    exact computeKeys_ok_length hn ex 0 records keys hck
  have hrl : (records.map Record.coord).length = records.length := List.length_map _ _
  constructor
  · obtain ⟨j, hw⟩ := (mem_duplicate_indices hkl t i).mp hi
    obtain ⟨hic, hjc, hne, hkey, ht2, hd⟩ := hw
    have hir : i < records.length := by omega
    have hjr : j < records.length := by omega
    refine ⟨j, ?_, hne, ?_, ?_⟩
    · exact (mem_duplicate_indices hkl t j).mpr
        ⟨i, witnessPair_symm ⟨hic, hjc, hne, hkey, ht2, hd⟩⟩
    · rw [computeKeys_ok_get hn ex 0 records keys hck j hjr,
        computeKeys_ok_get hn ex 0 records keys hck i hir, hkey]
    · rw [← getD_map_coord records i hir, ← getD_map_coord records j hjr]
      exact hd
  · exact Multiset.nodup_iff_count_le_one.mp (duplicate_indices _ keys t).nodup i

/-- C1 witness: a concrete detection pass with two co-located records
sharing a house number, evaluated at id 0. -/
theorem detect_result_members_have_witness_example :
    (∃ j ∈ ({0, 1} : Finset ℕ), j ≠ 0 ∧
      make_key "h" [] ([⟨(0, 0), [("h", "7")]⟩, ⟨(0, 0), [("h", "7")]⟩].getD j defaultRecord) =
        make_key "h" [] ([⟨(0, 0), [("h", "7")]⟩, ⟨(0, 0), [("h", "7")]⟩].getD 0 defaultRecord) ∧
      sqDist (([⟨(0, 0), [("h", "7")]⟩, ⟨(0, 0), [("h", "7")]⟩].getD 0 defaultRecord)).coord
        (([⟨(0, 0), [("h", "7")]⟩, ⟨(0, 0), [("h", "7")]⟩].getD j defaultRecord)).coord ≤ 1 * 1) ∧
    ({0, 1} : Finset ℕ).val.count 0 ≤ 1 :=
  detect_result_members_have_witness
    [⟨(0, 0), [("h", "7")]⟩, ⟨(0, 0), [("h", "7")]⟩] "h" [] 1 {0, 1}
    (by decide) 0 (by decide)

/-- C2: the witness relation is symmetric in the output — whenever
record j is a qualifying witness for record i, both ids are in the
duplicate set and record i is a qualifying witness for record j. -/
theorem duplicate_indices_witness_symmetric (coords : List Coord)
    (keys : List String) (t : ℤ) (i j : ℕ)
    (hl : keys.length = coords.length) (h : witnessPair coords keys t i j) :
    i ∈ duplicate_indices coords keys t ∧
    j ∈ duplicate_indices coords keys t ∧
    witnessPair coords keys t j i :=
  ⟨(mem_duplicate_indices hl t i).mpr ⟨j, h⟩,
   (mem_duplicate_indices hl t j).mpr ⟨i, witnessPair_symm h⟩,
   witnessPair_symm h⟩

/-- C2 witness: two records 10 meters apart with equal keys and
threshold 15. -/
theorem duplicate_indices_witness_symmetric_example :
    0 ∈ duplicate_indices [(0, 0), (10, 0)] ["5", "5"] 15 ∧
    1 ∈ duplicate_indices [(0, 0), (10, 0)] ["5", "5"] 15 ∧
    witnessPair [(0, 0), (10, 0)] ["5", "5"] 15 1 0 :=
  duplicate_indices_witness_symmetric [(0, 0), (10, 0)] ["5", "5"] 15 0 1
    (by decide) (by decide)

/-- C3: distance comparison uses the closed interval from 0 to the
threshold — two records with equal composite keys whose squared
distance equals the squared threshold are both reported, while if
their squared distance strictly exceeds the squared threshold and
neither of the two has another qualifying witness, neither is
reported. -/
theorem duplicate_indices_threshold_boundary (coords : List Coord)
    (keys : List String) (t : ℤ) (a b : ℕ)
    (hl : keys.length = coords.length) (ha : a < coords.length)
    (hb : b < coords.length) (hab : b ≠ a)
    (hkey : keys.getD b "" = keys.getD a "") (ht : 0 ≤ t) :
    (sqDist (coords.getD a (0, 0)) (coords.getD b (0, 0)) = t * t →
      a ∈ duplicate_indices coords keys t ∧ b ∈ duplicate_indices coords keys t) ∧
    (t * t < sqDist (coords.getD a (0, 0)) (coords.getD b (0, 0)) →
      (∀ k, witnessPair coords keys t a k → k = b) →
      (∀ k, witnessPair coords keys t b k → k = a) →
      a ∉ duplicate_indices coords keys t ∧ b ∉ duplicate_indices coords keys t) := by
  constructor
  · intro heq
    have hw : witnessPair coords keys t a b := ⟨ha, hb, hab, hkey, ht, le_of_eq heq⟩
    exact ⟨(mem_duplicate_indices hl t a).mpr ⟨b, hw⟩,
      (mem_duplicate_indices hl t b).mpr ⟨a, witnessPair_symm hw⟩⟩
  · intro hgt hwa hwb
    constructor
    · intro hmem
      obtain ⟨k, hw⟩ := (mem_duplicate_indices hl t a).mp hmem
      have hkb : k = b := hwa k hw
      rw [hkb] at hw
      exact absurd hw.2.2.2.2.2 (not_le.mpr hgt)
    · intro hmem
      obtain ⟨k, hw⟩ := (mem_duplicate_indices hl t b).mp hmem
      have hka : k = a := hwb k hw
      rw [hka] at hw
      have := hw.2.2.2.2.2
      rw [sqDist_comm] at this
      exact absurd this (not_le.mpr hgt)

/-- C3 witness: records 5 meters apart with equal keys; at threshold 5
both are reported, and at threshold 4 (squared distance 25 > 16, no
other record present) neither is. -/
theorem duplicate_indices_threshold_boundary_example :
    (0 ∈ duplicate_indices [(0, 0), (3, 4)] ["9", "9"] 5 ∧
      1 ∈ duplicate_indices [(0, 0), (3, 4)] ["9", "9"] 5) ∧
    (0 ∉ duplicate_indices [(0, 0), (3, 4)] ["9", "9"] 4 ∧
      1 ∉ duplicate_indices [(0, 0), (3, 4)] ["9", "9"] 4) := by
  constructor
  · exact (duplicate_indices_threshold_boundary [(0, 0), (3, 4)] ["9", "9"] 5 0 1
      (by decide) (by decide) (by decide) (by decide) (by decide) (by decide)).1
      (by decide)
  · exact (duplicate_indices_threshold_boundary [(0, 0), (3, 4)] ["9", "9"] 4 0 1
      (by decide) (by decide) (by decide) (by decide) (by decide) (by decide)).2
      (by decide)
      (by
        intro k hw
        obtain ⟨_, hk, hne, _, _, _⟩ := hw
        simp only [List.length_cons, List.length_nil] at hk
        omega)
      (by
        intro k hw
        obtain ⟨_, hk, hne, _, _, _⟩ := hw
        simp only [List.length_cons, List.length_nil] at hk
        omega)

/-- C9: the duplicate set is never a singleton — ids are only ever
inserted as a matched pair, so the result is empty or has at least two
elements. -/
theorem duplicate_indices_card_ne_one (coords : List Coord)
    (keys : List String) (t : ℤ) :
    duplicate_indices coords keys t = ∅ ∨
      2 ≤ (duplicate_indices coords keys t).card := by
  by_cases h : duplicate_indices coords keys t = ∅
  · exact Or.inl h
  · right
    obtain ⟨x, hx⟩ := Finset.nonempty_of_ne_empty h
    obtain ⟨i, j, hic, hik, hjc, hne, hkey, ht, hd, _⟩ :=
      (mem_duplicate_indices_raw coords keys t x).mp hx
    have hi : i ∈ duplicate_indices coords keys t :=
      (mem_duplicate_indices_raw coords keys t i).mpr
        ⟨i, j, hic, hik, hjc, hne, hkey, ht, hd, Or.inl rfl⟩
    have hj : j ∈ duplicate_indices coords keys t :=
      (mem_duplicate_indices_raw coords keys t j).mpr
        ⟨i, j, hic, hik, hjc, hne, hkey, ht, hd, Or.inr rfl⟩
    have : 1 < (duplicate_indices coords keys t).card :=
      Finset.one_lt_card.mpr ⟨j, hj, i, hi, hne⟩
    omega

/-- C10: detection is monotone in the threshold — with the same records
and key fields, any duplicate set computed at a smaller threshold is
contained in the one computed at a larger threshold. -/
theorem detect_monotone_threshold (records : List Record) (hn : String)
    (ex : List String) (t1 t2 : ℤ) (s1 s2 : Finset ℕ)
    (h1 : detect records hn ex t1 = .ok s1)
    (h2 : detect records hn ex t2 = .ok s2) (hle : t1 ≤ t2) : s1 ⊆ s2 := by
  obtain ⟨ht1, keys1, hck1, rfl⟩ := detect_ok_elim records hn ex t1 s1 h1
  obtain ⟨ht2, keys2, hck2, rfl⟩ := detect_ok_elim records hn ex t2 s2 h2
  have hkeq : keys1 = keys2 := by
    have := hck1.symm.trans hck2
    exact Except.ok.inj this
  subst hkeq
  have hkl : keys1.length = (records.map Record.coord).length := by
    rw [List.length_map]
    exact computeKeys_ok_length hn ex 0 records keys1 hck1
  intro x hx
  obtain ⟨j, hic, hjc, hne, hkey, ht, hd⟩ := (mem_duplicate_indices hkl t1 x).mp hx
  refine (mem_duplicate_indices hkl t2 x).mpr ⟨j, hic, hjc, hne, hkey, by omega, ?_⟩
  exact le_trans hd (by nlinarith)

/-- C10 witness: the same two records at thresholds 1 and 2. -/
theorem detect_monotone_threshold_example :
    ({0, 1} : Finset ℕ) ⊆ ({0, 1} : Finset ℕ) :=
  detect_monotone_threshold [⟨(0, 0), [("h", "7")]⟩, ⟨(1, 0), [("h", "7")]⟩]
    "h" [] 1 2 {0, 1} {0, 1} (by decide) (by decide) (by decide)

/-- C5: a zero or negative distance threshold makes the detection call
fail with the invalid-threshold error; by definition of `detect` the
guard fires before the composite keys, the spatial index or the
duplicate set are ever computed. -/
theorem detect_rejects_nonpositive_threshold (records : List Record)
    (hn : String) (ex : List String) (t : ℤ) (ht : t ≤ 0) :
    detect records hn ex t = .error .invalidThreshold := by
  unfold detect
  rw [if_pos (by omega)]

/-- C5 witness: threshold 0 on a nonempty input. -/
theorem detect_rejects_nonpositive_threshold_example :
    detect [⟨(0, 0), [("h", "7")]⟩] "h" [] 0 = .error .invalidThreshold :=
  detect_rejects_nonpositive_threshold [⟨(0, 0), [("h", "7")]⟩] "h" [] 0
    (by decide)

lemma fieldParts_error_of_missing (r : Record) :
    ∀ (fs : List String), (∃ f ∈ fs, getField r f = none) →
      ∃ f, fieldParts r fs = .error f := by
  intro fs
  induction fs with
  | nil => rintro ⟨f, hf, _⟩; cases hf
  | cons g fs ih =>
    rintro ⟨f, hf, hnone⟩
    cases hg : getField r g with
    | none => exact ⟨g, by unfold fieldParts; rw [hg]⟩
    | some v =>
      rcases List.mem_cons.mp hf with rfl | hmem
      · rw [hg] at hnone; cases hnone
      · obtain ⟨e, he⟩ := ih ⟨f, hmem, hnone⟩
        refine ⟨e, ?_⟩
        unfold fieldParts
        rw [hg, he]

lemma make_key_error_of_missing (hn : String) (ex : List String) (r : Record)
    (h : ∃ f ∈ hn :: ex, getField r f = none) :
    ∃ f, make_key hn ex r = .error f := by
  obtain ⟨f, hf⟩ := fieldParts_error_of_missing r (hn :: ex) h
  exact ⟨f, by unfold make_key; rw [hf]⟩

lemma computeKeys_error_of_failure (hn : String) (ex : List String) :
    ∀ (rs : List Record) (i0 m : ℕ), m < rs.length →
      (∃ f, make_key hn ex (rs.getD m defaultRecord) = .error f) →
      ∃ r f, computeKeys hn ex i0 rs = .error (.missingField r f) := by
  intro rs
  induction rs with
  | nil => intro i0 m hm; cases hm
  | cons r rs ih =>
    intro i0 m hm hfail
    cases hmk : make_key hn ex r with
    | error f => exact ⟨i0, f, by unfold computeKeys; rw [hmk]⟩
    | ok k =>
      cases m with
      | zero =>
        obtain ⟨f, hf⟩ := hfail
        simp only [List.getD_cons_zero] at hf
        rw [hmk] at hf
        cases hf
      | succ m =>
        have hm2 : m < rs.length := by simpa using hm
        have hfail2 : ∃ f, make_key hn ex (rs.getD m defaultRecord) = .error f := by
          simpa using hfail
        obtain ⟨rid, f, hck⟩ := ih (i0 + 1) m hm2 hfail2
        refine ⟨rid, f, ?_⟩
        unfold computeKeys
        rw [hmk, hck]

/-- C6: if composite-key derivation fails for some record — a
designated key field absent from that record's attributes — then a
detection pass with a valid threshold fails with a missing-field error,
so there is no result set at all and the record is not silently
skipped. -/
theorem detect_missing_field_aborts (records : List Record) (hn : String)
    (ex : List String) (t : ℤ) (ht : 1 ≤ t) (i : ℕ) (hi : i < records.length)
    (hmiss : ∃ f ∈ hn :: ex, getField (records.getD i defaultRecord) f = none) :
    ∃ r f, detect records hn ex t = .error (.missingField r f) := by
  obtain ⟨rid, f, hck⟩ := computeKeys_error_of_failure hn ex records 0 i hi
    (make_key_error_of_missing hn ex _ hmiss)
  refine ⟨rid, f, ?_⟩
  unfold detect
  rw [if_neg (by omega), hck]

/-- C6 witness: a single record with no attributes at all. -/
theorem detect_missing_field_aborts_example :
    ∃ r f, detect [⟨(0, 0), []⟩] "h" [] 1 = .error (.missingField r f) :=
  detect_missing_field_aborts [⟨(0, 0), []⟩] "h" [] 1 (by decide) 0 (by decide)
    ⟨"h", by decide, by decide⟩

/-- C7: the two concrete scenarios of the specification — three records
with house numbers "100", "100", "200" at x-positions 0, 10 and 5: a
pass with threshold 15 returns exactly the set of ids 0 and 1, and a
pass with threshold 9 on the same records returns the empty set. -/
theorem detect_concrete_scenarios :
    detect [⟨(0, 0), [("HN", "100")]⟩, ⟨(10, 0), [("HN", "100")]⟩,
        ⟨(5, 0), [("HN", "200")]⟩] "HN" [] 15 = .ok {0, 1} ∧
    detect [⟨(0, 0), [("HN", "100")]⟩, ⟨(10, 0), [("HN", "100")]⟩,
        ⟨(5, 0), [("HN", "200")]⟩] "HN" [] 9 = .ok ∅ := by
  constructor
  · decide
  · decide

lemma getD_ofFn {n : ℕ} {α : Type} (f : Fin n → α) (d : α) (i : ℕ) (hi : i < n) :
    (List.ofFn f).getD i d = f ⟨i, hi⟩ := by
  rw [List.getD_eq_getElem _ _ (by simpa using hi), List.getElem_ofFn]

lemma witnessPair_ofFn {n : ℕ} (c : Fin n → Coord) (k : Fin n → String)
    (t : ℤ) (i j : ℕ) :
    witnessPair (List.ofFn c) (List.ofFn k) t i j ↔
      ∃ (hi : i < n) (hj : j < n), j ≠ i ∧ k ⟨j, hj⟩ = k ⟨i, hi⟩ ∧ 0 ≤ t ∧
        sqDist (c ⟨i, hi⟩) (c ⟨j, hj⟩) ≤ t * t := by
  unfold witnessPair
  constructor
  · rintro ⟨hi, hj, hne, hkey, ht, hd⟩
    have hi2 : i < n := by simpa using hi
    have hj2 : j < n := by simpa using hj
    refine ⟨hi2, hj2, hne, ?_, ht, ?_⟩
    · rwa [getD_ofFn k "" j hj2, getD_ofFn k "" i hi2] at hkey
    · rwa [getD_ofFn c (0, 0) i hi2, getD_ofFn c (0, 0) j hj2] at hd
  · rintro ⟨hi2, hj2, hne, hkey, ht, hd⟩
    refine ⟨by simpa using hi2, by simpa using hj2, hne, ?_, ht, ?_⟩
    · rwa [getD_ofFn k "" j hj2, getD_ofFn k "" i hi2]
    · rwa [getD_ofFn c (0, 0) i hi2, getD_ofFn c (0, 0) j hj2]

/-- C8: the duplicate set does not depend on the iteration order of the
per-record loop — running detection on the records permuted by σ and
translating the returned positions back through σ gives exactly the
duplicate set of the original order. -/
theorem duplicate_indices_order_independent (n : ℕ) (c : Fin n → Coord)
    (k : Fin n → String) (σ : Equiv.Perm (Fin n)) (t : ℤ) :
    Finset.image (fun i : Fin n => (σ i : ℕ))
      (Finset.univ.filter (fun i : Fin n =>
        (i : ℕ) ∈ duplicate_indices (List.ofFn (fun x => c (σ x)))
          (List.ofFn (fun x => k (σ x))) t)) =
    duplicate_indices (List.ofFn c) (List.ofFn k) t := by
  have hlP : (List.ofFn (fun x => k (σ x))).length =
      (List.ofFn (fun x => c (σ x))).length := by
    simp
  have hlO : (List.ofFn k).length = (List.ofFn c).length := by simp
  ext x
  simp only [Finset.mem_image, Finset.mem_filter, Finset.mem_univ, true_and]
  constructor
  · rintro ⟨i, hm, hx⟩
    obtain ⟨j, hw⟩ := (mem_duplicate_indices hlP t (i : ℕ)).mp hm
    obtain ⟨hi2, hj2, hne, hkey, ht, hd⟩ := (witnessPair_ofFn _ _ t _ j).mp hw
    have hieta : (⟨(i : ℕ), hi2⟩ : Fin n) = i := Fin.eta i hi2
    refine (mem_duplicate_indices hlO t x).mpr ⟨(σ ⟨j, hj2⟩ : ℕ), ?_⟩
    rw [← hx]
    refine (witnessPair_ofFn c k t _ _).mpr
      ⟨(σ i).isLt, (σ ⟨j, hj2⟩).isLt, ?_, ?_, ht, ?_⟩
    · intro hc
      apply hne
      have : σ ⟨j, hj2⟩ = σ i := Fin.val_injective hc
      have := σ.injective this
      rw [← hieta] at this
      exact congrArg Fin.val this
    · rw [Fin.eta, Fin.eta]
      rw [hieta] at hkey
      exact hkey
    · rw [Fin.eta, Fin.eta]
      rw [hieta] at hd
      exact hd
  · intro hm
    obtain ⟨j, hw⟩ := (mem_duplicate_indices hlO t x).mp hm
    obtain ⟨hx2, hj2, hne, hkey, ht, hd⟩ := (witnessPair_ofFn c k t x j).mp hw
    refine ⟨σ.symm ⟨x, hx2⟩, ?_, by simp⟩
    refine (mem_duplicate_indices hlP t _).mpr ⟨(σ.symm ⟨j, hj2⟩ : ℕ), ?_⟩
    refine (witnessPair_ofFn _ _ t _ _).mpr
      ⟨(σ.symm ⟨x, hx2⟩).isLt, (σ.symm ⟨j, hj2⟩).isLt, ?_, ?_, ht, ?_⟩
    · intro hc
      apply hne
      have : σ.symm ⟨j, hj2⟩ = σ.symm ⟨x, hx2⟩ := Fin.val_injective hc
      have := σ.symm.injective this
      exact congrArg Fin.val this
    · simp only [Fin.eta, Equiv.apply_symm_apply]
      exact hkey
    · simp only [Fin.eta, Equiv.apply_symm_apply]
      exact hd

/-! ### Composite keys and the separator -/

lemma intercalate_go_append (s : String) :
    ∀ (l : List String) (acc1 acc2 : String),
      String.intercalate.go (acc1 ++ acc2) s l = acc1 ++ String.intercalate.go acc2 s l := by
  intro l
  induction l with
  | nil => intro acc1 acc2; rfl
  | cons a l ih =>
    intro acc1 acc2
    have h1 : String.intercalate.go (acc1 ++ acc2) s (a :: l) =
        String.intercalate.go (acc1 ++ acc2 ++ s ++ a) s l := rfl
    have h2 : String.intercalate.go acc2 s (a :: l) =
        String.intercalate.go (acc2 ++ s ++ a) s l := rfl
    rw [h1, h2, ← ih acc1 (acc2 ++ s ++ a)]
    congr 1
    apply String.ext
    simp [String.data_append]

lemma intercalate_cons_cons (s a b : String) (l : List String) :
    String.intercalate s (a :: b :: l) = a ++ s ++ String.intercalate s (b :: l) := by
  have h1 : String.intercalate s (a :: b :: l) =
      String.intercalate.go (a ++ s ++ b) s l := rfl
  have h2 : String.intercalate s (b :: l) = String.intercalate.go b s l := rfl
  rw [h1, h2, ← intercalate_go_append s l (a ++ s) b]

lemma append_sep_inj :
    ∀ (u1 u2 v1 v2 : List Char), '|' ∉ u1 → '|' ∉ u2 →
      u1 ++ '|' :: v1 = u2 ++ '|' :: v2 → u1 = u2 ∧ v1 = v2 := by
  intro u1
  induction u1 with
  | nil =>
    intro u2 v1 v2 _ h2 heq
    cases u2 with
    | nil => simpa using heq
    | cons c u2 =>
      simp only [List.nil_append, List.cons_append, List.cons.injEq] at heq
      exfalso
      apply h2
      rw [← heq.1]
      exact List.mem_cons_self '|' u2
  | cons c u1 ih =>
    intro u2 v1 v2 h1 h2 heq
    cases u2 with
    | nil =>
      simp only [List.cons_append, List.nil_append, List.cons.injEq] at heq
      exact absurd (by rw [heq.1]; exact List.mem_cons_self _ u1) h1
    | cons d u2 =>
      simp only [List.cons_append, List.cons.injEq] at heq
      obtain ⟨hcd, htail⟩ := heq
      have h1b : '|' ∉ u1 := fun hm => h1 (List.mem_cons_of_mem _ hm)
      have h2b : '|' ∉ u2 := fun hm => h2 (List.mem_cons_of_mem _ hm)
      obtain ⟨hu, hv⟩ := ih u2 v1 v2 h1b h2b htail
      exact ⟨by rw [hcd, hu], hv⟩

lemma data_append_sep (a x : String) :
    (a ++ "|" ++ x).data = a.data ++ '|' :: x.data := by
  rw [String.data_append, String.data_append]
  rw [List.append_assoc]
  rfl

lemma intercalate_sepfree_inj :
    ∀ (l1 l2 : List String), l1.length = l2.length →
      (∀ x ∈ l1, '|' ∉ x.data) → (∀ x ∈ l2, '|' ∉ x.data) →
      String.intercalate "|" l1 = String.intercalate "|" l2 → l1 = l2 := by
  intro l1
  induction l1 with
  | nil =>
    intro l2 hlen _ _ _
    cases l2 with
    | nil => rfl
    | cons b l2 => simp at hlen
  | cons a rest ih =>
    intro l2 hlen hf1 hf2 heq
    cases l2 with
    | nil => simp at hlen
    | cons b l2 =>
      cases rest with
      | nil =>
        cases l2 with
        | nil =>
          have ha : String.intercalate "|" [a] = a := rfl
          have hb : String.intercalate "|" [b] = b := rfl
          rw [ha, hb] at heq
          rw [heq]
        | cons b2 l2 => simp at hlen
      | cons a2 rest2 =>
        cases l2 with
        | nil => simp at hlen
        | cons b2 l2 =>
          rw [intercalate_cons_cons, intercalate_cons_cons] at heq
          have hdata := congrArg String.data heq
          rw [data_append_sep, data_append_sep] at hdata
          have hsep1 : '|' ∉ a.data := hf1 a (List.mem_cons_self a _)
          have hsep2 : '|' ∉ b.data := hf2 b (List.mem_cons_self b _)
          obtain ⟨hhead, htail⟩ := append_sep_inj a.data b.data _ _ hsep1 hsep2 hdata
          have hab : a = b := String.ext hhead
          have htl : String.intercalate "|" (a2 :: rest2) =
              String.intercalate "|" (b2 :: l2) := String.ext htail
          have hrest : a2 :: rest2 = b2 :: l2 := by
            refine ih (b2 :: l2) (by simpa using hlen) ?_ ?_ htl
            · intro x hx
              exact hf1 x (List.mem_cons_of_mem a hx)
            · intro x hx
              exact hf2 x (List.mem_cons_of_mem b hx)
          rw [hab, hrest]

lemma fieldParts_ok_length (r : Record) :
    ∀ (fs vs : List String), fieldParts r fs = .ok vs → vs.length = fs.length := by
  intro fs
  induction fs with
  | nil => intro vs h; cases h; rfl
  | cons f fs ih =>
    intro vs h
    unfold fieldParts at h
    cases hg : getField r f with
    | none => rw [hg] at h; cases h
    | some v =>
      rw [hg] at h
      cases hfp : fieldParts r fs with
      | error e => rw [hfp] at h; cases h
      | ok vs0 =>
        rw [hfp] at h
        cases h
        simp [ih vs0 hfp]

lemma fieldParts_ok_get (r : Record) :
    ∀ (fs vs : List String), fieldParts r fs = .ok vs →
      ∀ m, m < fs.length → getField r (fs.getD m "") = some (vs.getD m "") := by
  intro fs
  induction fs with
  | nil => intro vs _ m hm; cases hm
  | cons f fs ih =>
    intro vs h m hm
    unfold fieldParts at h
    cases hg : getField r f with
    | none => rw [hg] at h; cases h
    | some v =>
      rw [hg] at h
      cases hfp : fieldParts r fs with
      | error e => rw [hfp] at h; cases h
      | ok vs0 =>
        rw [hfp] at h
        cases h
        cases m with
        | zero => simpa using hg
        | succ m =>
          have hm2 : m < fs.length := by simpa using hm
          simpa using ih vs0 hfp m hm2

lemma fieldParts_mem (r : Record) :
    ∀ (fs vs : List String), fieldParts r fs = .ok vs →
      ∀ v ∈ vs, ∃ f ∈ fs, getField r f = some v := by
  intro fs
  induction fs with
  | nil =>
    intro vs h v hv
    cases h
    cases hv
  | cons f fs ih =>
    intro vs h v hv
    unfold fieldParts at h
    cases hg : getField r f with
    | none => rw [hg] at h; cases h
    | some w =>
      rw [hg] at h
      cases hfp : fieldParts r fs with
      | error e => rw [hfp] at h; cases h
      | ok vs0 =>
        rw [hfp] at h
        cases h
        rcases List.mem_cons.mp hv with rfl | hv2
        · exact ⟨f, List.mem_cons_self f fs, hg⟩
        · obtain ⟨g, hgmem, hgv⟩ := ih vs0 hfp v hv2
          exact ⟨g, List.mem_cons_of_mem f hgmem, hgv⟩

lemma fieldParts_congr (r1 r2 : Record) :
    ∀ (fs : List String), (∀ f ∈ fs, getField r1 f = getField r2 f) →
      fieldParts r1 fs = fieldParts r2 fs := by
  intro fs
  induction fs with
  | nil => intro _; rfl
  | cons f fs ih =>
    intro hf
    have hfst : getField r1 f = getField r2 f := hf f (List.mem_cons_self f fs)
    have hrest := ih (fun g hg => hf g (List.mem_cons_of_mem f hg))
    unfold fieldParts
    rw [← hfst, hrest]

lemma make_key_ok_elim (hn : String) (ex : List String) (r : Record)
    (key : String) (h : make_key hn ex r = .ok key) :
    ∃ parts, fieldParts r (hn :: ex) = .ok parts ∧
      key = String.intercalate "|" parts := by
  unfold make_key at h
  cases hfp : fieldParts r (hn :: ex) with
  | error e => rw [hfp] at h; cases h
  | ok parts =>
    rw [hfp] at h
    cases h
    exact ⟨parts, rfl, rfl⟩

/-- C4 counterexample: with separator "|" and a field value that itself
contains "|", two records whose composite keys are identical as strings
disagree on the primary-field value, refuting the claimed equivalence
of key equality and field-wise equality. -/
theorem make_key_separator_collision :
    make_key "h" ["s"] ⟨(0, 0), [("h", "1|2"), ("s", "3")]⟩ =
      make_key "h" ["s"] ⟨(0, 0), [("h", "1"), ("s", "2|3")]⟩ ∧
    ¬ (∀ f ∈ ["h", "s"],
        getField ⟨(0, 0), [("h", "1|2"), ("s", "3")]⟩ f =
          getField ⟨(0, 0), [("h", "1"), ("s", "2|3")]⟩ f) := by
  constructor
  · decide
  · decide

/-- C4 amended: for records none of whose designated field values
contains the separator character "|", composite keys are identical as
strings exactly when the stringified primary-field value and each
designated secondary-field value agree pairwise; without that
restriction the separator can collide with field values. -/
theorem make_key_eq_iff_fields_eq (hn : String) (ex : List String)
    (r1 r2 : Record) (k1 k2 : String)
    (h1 : make_key hn ex r1 = .ok k1) (h2 : make_key hn ex r2 = .ok k2)
    (hfree1 : ∀ f ∈ hn :: ex, ∀ v, getField r1 f = some v → '|' ∉ v.data)
    (hfree2 : ∀ f ∈ hn :: ex, ∀ v, getField r2 f = some v → '|' ∉ v.data) :
    k1 = k2 ↔ ∀ f ∈ hn :: ex, getField r1 f = getField r2 f := by
  obtain ⟨ps1, hp1, hk1⟩ := make_key_ok_elim hn ex r1 k1 h1
  obtain ⟨ps2, hp2, hk2⟩ := make_key_ok_elim hn ex r2 k2 h2
  constructor
  · intro hk
    have hlen : ps1.length = ps2.length := by
      rw [fieldParts_ok_length r1 _ _ hp1, fieldParts_ok_length r2 _ _ hp2]
    have hsf1 : ∀ x ∈ ps1, '|' ∉ x.data := by
      intro x hx
      obtain ⟨f, hf, hgf⟩ := fieldParts_mem r1 _ _ hp1 x hx
      exact hfree1 f hf x hgf
    have hsf2 : ∀ x ∈ ps2, '|' ∉ x.data := by
      intro x hx
      obtain ⟨f, hf, hgf⟩ := fieldParts_mem r2 _ _ hp2 x hx
      exact hfree2 f hf x hgf
    have hps : ps1 = ps2 := intercalate_sepfree_inj ps1 ps2 hlen hsf1 hsf2
      (by rw [← hk1, ← hk2, hk])
    intro f hf
    obtain ⟨m, hm, rfl⟩ := List.mem_iff_getElem.mp hf
    have e1 := fieldParts_ok_get r1 _ _ hp1 m hm
    have e2 := fieldParts_ok_get r2 _ _ hp2 m hm
    rw [List.getD_eq_getElem _ _ hm] at e1 e2
    rw [e1, e2, hps]
  · intro hfields
    have hsame : fieldParts r1 (hn :: ex) = fieldParts r2 (hn :: ex) :=
      fieldParts_congr r1 r2 _ hfields
    rw [hp1, hp2] at hsame
    rw [hk1, hk2, Except.ok.inj hsame]

/-- C4 amended witness: two distinct records with separator-free,
pairwise equal field values yield the same composite key. -/
theorem make_key_eq_iff_fields_eq_example : ("1|2" : String) = "1|2" :=
  (make_key_eq_iff_fields_eq "h" ["s"]
    ⟨(0, 0), [("h", "1"), ("s", "2")]⟩ ⟨(5, 7), [("h", "1"), ("s", "2")]⟩
    "1|2" "1|2" rfl rfl
    (by
      intro f hf v hv
      rcases List.mem_cons.mp hf with rfl | hf2
      · have hv2 : some "1" = some v := hv
        cases hv2
        decide
      · rcases List.mem_cons.mp hf2 with rfl | hf3
        · have hv2 : some "2" = some v := hv
          cases hv2
          decide
        · cases hf3)
    (by
      intro f hf v hv
      rcases List.mem_cons.mp hf with rfl | hf2
      · have hv2 : some "1" = some v := hv
        cases hv2
        decide
      · rcases List.mem_cons.mp hf2 with rfl | hf3
        · have hv2 : some "2" = some v := hv
          cases hv2
          decide
        · cases hf3)).mpr (by decide)
